import Mathlib

/-!
Shallow embedding of the toondb repository core (Go):
`internal/parser/toon.go` (TOON decoder `ParseToon`, encoder
`mapToTOON`/`arrayToTOON`), the `internal/db` collection store built on
badger (`Get`, `Set`, `GetCollections`, `Backup`, `Restore`) and the
HTTP upsert handler of `internal/handlers/handlers.go`.

Strings are modelled as `List Char` (`Str`).  Go standard library functions used
by the source (`strings.TrimSpace`, `strings.Split`, `strings.SplitN`,
`strings.Contains`, `strings.HasPrefix`) are embedded as executable
list functions; the two regular expressions of `ParseToon` are embedded
as direct anchored matchers with the same semantics (RE2, anchored
`^...$`, `.` does not match a newline, `[^\[]+` cannot cross a `[`).
-/

/-- Strings are modelled as lists of characters. -/
abbrev Str := List Char

/-- ASCII whitespace as recognised by Go's `unicode.IsSpace` (the inputs
considered here are ASCII; the additional Unicode space code points are
not modelled). -/
def isSpc (c : Char) : Bool :=
  c = ' ' || c = '\t' || c = '\n' || c = '\r' || c = '\x0b' || c = '\x0c'

/-- Go `strings.TrimSpace`: drop whitespace from both ends. -/
def trim (s : Str) : Str :=
  ((s.dropWhile isSpc).reverse.dropWhile isSpc).reverse

/-- Go `strings.Split(s, sep)` for a one-character separator.
`split c "" = [""]` just as in Go. -/
def splitChar (c : Char) : Str → List Str
  | [] => [[]]
  | x :: xs =>
    if x = c then [] :: splitChar c xs
    else
      match splitChar c xs with
      | [] => [[x]]
      | r :: rs => (x :: r) :: rs

/-- Go `strings.Contains(s, string(c))` for one character. -/
def containsChar (c : Char) (s : Str) : Bool := s.contains c

/-- Go `strings.HasPrefix`. -/
def startsWith : Str → Str → Bool
  | _, [] => true
  | [], _ :: _ => false
  | x :: xs, y :: ys => x = y && startsWith xs ys

/-- Go `strings.SplitN(s, ":", 2)` restricted to the case where the
separator occurs: the part before the first `c` and the part after it. -/
def splitOnce (c : Char) : Str → Str × Str
  | [] => ([], [])
  | x :: xs =>
    if x = c then ([], xs)
    else
      let p := splitOnce c xs
      (x :: p.1, p.2)

/-- Go `strings.Join(parts, string(c))`. -/
def joinSep (c : Char) : List Str → Str
  | [] => []
  | [s] => s
  | s :: rest => s ++ c :: joinSep c rest

/-- Split a string at the first occurrence of `c` (the separator removed),
or `none` when `c` does not occur.  Used to embed the leftmost-`[`
behaviour of the regex character class `[^\[]+`. -/
def breakAt (c : Char) : Str → Option (Str × Str)
  | [] => none
  | x :: xs =>
    if x = c then some ([], xs)
    else (breakAt c xs).map (fun p => (x :: p.1, p.2))

/-- Numeric value of a digit string, as `strconv.Atoi` computes it
(overflow is not modelled; the sizes in the claims are small). -/
def natOfDigits (s : Str) : Nat :=
  s.foldl (fun a c => a * 10 + (c.toNat - 48)) 0

/-- Capture of `\s*(.+)$` on the remainder of a line: the greedy
whitespace prefix is dropped, except that `.+` must keep at least one
character, so an all-whitespace remainder captures its last character.
An empty remainder does not match. -/
def wsDotPlus (rest : Str) : Option Str :=
  if rest = [] then none
  else
    let d := rest.dropWhile isSpc
    if d = [] then some (rest.drop (rest.length - 1)) else some d

/-- Embedding of the anchored Go regex match
`^([^\[]+)\[(\d+)\]:\s*(.+)$` of `ParseToon` (toon.go line 39): key part
before the first `[` (non-empty), a non-empty digit run, then `]:`,
then the value capture. Returns (key, size, value capture). -/
def arrayMatch (line : Str) : Option (Str × Nat × Str) :=
  match breakAt '[' line with
  | none => none
  | some (key, rest1) =>
    if key = [] then none
    else
      let ds := rest1.takeWhile Char.isDigit
      match rest1.dropWhile Char.isDigit with
      | ']' :: ':' :: rest3 =>
        if ds = [] then none
        else (wsDotPlus rest3).map (fun g3 => (key, natOfDigits ds, g3))
      | _ => none

/-- Embedding of the anchored Go regex match
`^([^\[]+)\[(\d+)\]\{([^\}]+)\}:\s*(.+)$` of `ParseToon` (toon.go
line 59). Returns (key, size, field list capture, data capture). -/
def objArrayMatch (line : Str) : Option (Str × Nat × Str × Str) :=
  match breakAt '[' line with
  | none => none
  | some (key, rest1) =>
    if key = [] then none
    else
      let ds := rest1.takeWhile Char.isDigit
      match rest1.dropWhile Char.isDigit with
      | ']' :: '\x7b' :: rest3 =>
        if ds = [] then none
        else
          match breakAt '\x7d' rest3 with
          | none => none
          | some (flds, rest4) =>
            if flds = [] then none
            else
              match rest4 with
              | ':' :: rest5 =>
                (wsDotPlus rest5).map (fun g4 => (key, natOfDigits ds, flds, g4))
              | _ => none
      | _ => none

/-- Values held in `ToonData.Fields` (Go `map[string]interface{}`): the
decoder stores strings, string arrays, nested objects
(`map[string]interface{}` whose values are always strings) and lists of
such objects. -/
inductive ToonVal where
  | str (s : Str)
  | arr (vs : List Str)
  | obj (kvs : List (Str × Str))
  | objList (rows : List (List (Str × Str)))
deriving DecidableEq, Repr

/-- Association-list update with Go map semantics: overwrite the entry
when the key exists, append otherwise.  Go map iteration order is
unspecified; the model fixes first-insertion order. -/
def setF : List (Str × ToonVal) → Str → ToonVal → List (Str × ToonVal)
  | [], k, v => [(k, v)]
  | (k0, v0) :: rest, k, v =>
    if k0 = k then (k, v) :: rest else (k0, v0) :: setF rest k v

/-- Lookup of a field in the decoded result. -/
def getF : List (Str × ToonVal) → Str → Option ToonVal
  | [], _ => none
  | (k0, v0) :: rest, k => if k0 = k then some v0 else getF rest k

/-- Update of a nested string entry inside the `ToonVal.obj` stored under
`ck` — the model of the Go mutation `currentObject[nestedKey] = v`
through the live pointer held in `currentObject` (toon.go line 102). -/
def setNested (fields : List (Str × ToonVal)) (ck nk nv : Str) :
    List (Str × ToonVal) :=
  match getF fields ck with
  | some (ToonVal.obj kvs) =>
    setF fields ck (ToonVal.obj
      (if (kvs.map Prod.fst).contains nk
       then kvs.map (fun p => if p.1 = nk then (nk, nv) else p)
       else kvs ++ [(nk, nv)]))
  | _ => fields

/-- Loop state of `ParseToon`: the fields map, the `inObject` / `inArray`
flags, and the key whose object the Go pointer `currentObject` aliases
(`none` models a nil pointer; `inArray` is never set to true anywhere in
the source, and `currentArray` is never allocated, so no array pointer is
modelled). -/
structure PState where
  fields : List (Str × ToonVal)
  inObject : Bool
  inArray : Bool
  curKey : Option Str
deriving DecidableEq, Repr

/-- Processing of one line of the `ParseToon` loop (toon.go lines 32-137),
branch for branch: trim; skip blank and `#` lines; the array regex; the
object-array regex; the indented-nested-line branch (checked on the
already-trimmed line, exactly as the source does); context reset followed
by the `key: value` / `key:` handling. -/
def pStep (st : PState) (rawLine : Str) : PState :=
  let line := trim rawLine
  if line = [] then st
  else if startsWith line ['#'] then st
  else
    match arrayMatch line with
    | some (key, size, g3) =>
      let values := (splitChar ',' g3).map trim
      let values := if values.length > size then values.take size else values
      { st with fields := setF st.fields key (ToonVal.arr values) }
    | none =>
      match objArrayMatch line with
      | some (key, size, fstr, dstr) =>
        let fieldNames := splitChar ',' fstr
        let dataLines := splitChar '\n' dstr
        let objects := dataLines.foldl (fun acc dl =>
          let dl := trim dl
          if dl = [] then acc
          else
            let values := splitChar ',' dl
            if values.length = fieldNames.length then
              acc ++ [List.zipWith (fun f v => (trim f, trim v)) fieldNames values]
            else acc) []
        let objects := if objects.length > size then objects.take size else objects
        { st with fields := setF st.fields key (ToonVal.objList objects) }
      | none =>
        if startsWith line [' ', ' '] && (st.inObject || st.inArray) then
          if containsChar ':' line then
            let p := splitOnce ':' line
            if st.inObject then
              match st.curKey with
              | some ck =>
                { st with fields := setNested st.fields ck (trim p.1) (trim p.2) }
              | none => st
            else st
          else st
        else
          let st := { st with inObject := false, inArray := false, curKey := none }
          if containsChar ':' line then
            let p := splitOnce ':' line
            let key := trim p.1
            let value := trim p.2
            if value = [] then
              { st with fields := setF st.fields key (ToonVal.obj []),
                        inObject := true, curKey := some key }
            else
              { st with fields := setF st.fields key (ToonVal.str value) }
          else st

/-- Initial loop state of `ParseToon`. -/
def pInit : PState := ⟨[], false, false, none⟩

/-- Embedding of `ParseToon` (toon.go lines 21-141): split the input on
newlines, fold the per-line step, return the fields together with the
error value — which is literally `nil` on the single return path of the
source. -/
def ParseToon (toon : Str) : List (Str × ToonVal) × Option Str :=
  (((splitChar '\n' toon).foldl pStep pInit).fields, none)

/-- JSON-like tree values handled by the encoder (`interface{}` trees
produced by `json.Unmarshal`): strings, arrays and objects.  Go
`map[string]interface{}` is modelled as an association list; Go map
iteration order is unspecified and the model fixes list order (the
source itself documents this as a nondeterminism of the encoder). -/
inductive JVal where
  | str (s : Str)
  | arr (vs : List JVal)
  | obj (kvs : List (Str × JVal))

/-- Decimal rendering of a length, as `fmt.Sprintf` with `%d` does. -/
def natStr (n : Nat) : Str := (Nat.repr n).toList

/-- Go `strings.Repeat("  ", indent)`. -/
def indentChars (n : Nat) : Str := List.replicate (2 * n) ' '

/-- Lookup in an object association list (Go map indexing). -/
def lookupJ : List (Str × JVal) → Str → Option JVal
  | [], _ => none
  | (k0, v0) :: rest, k => if k0 = k then some v0 else lookupJ rest k

/-- Union of the field names of all object items, in first-seen order
(the source collects them in a `map[string]bool` and iterates it, an
unspecified order; the comment above the iteration in toon.go line 221
speaks of a sorted slice but no sort is performed). -/
def fieldUnion (array : List JVal) : List Str :=
  array.foldl (fun acc item =>
    match item with
    | JVal.obj kvs => kvs.foldl (fun a p =>
        if a.contains p.1 then a else a ++ [p.1]) acc
    | _ => acc) []

mutual
/-- Embedding of `fmt.Sprintf("%v", val)` for the modelled value shapes
(only the string case is exercised by the claims; Go renders maps with
sorted keys, the model uses list order). -/
def fmtVal : JVal → Str
  | JVal.str s => s
  | JVal.arr vs => '[' :: joinSep ' ' (fmtList vs) ++ [']']
  | JVal.obj kvs =>
    ('m' :: 'a' :: 'p' :: '[' :: joinSep ' ' (fmtKvs kvs)) ++ [']']
def fmtList : List JVal → List Str
  | [] => []
  | v :: vs => fmtVal v :: fmtList vs
def fmtKvs : List (Str × JVal) → List Str
  | [] => []
  | (k, v) :: kvs => (k ++ ':' :: fmtVal v) :: fmtKvs kvs
end

/-- One table row of `arrayToTOON` (toon.go lines 231-244): for an object
item, the comma-joined value-or-empty-string per field, indented; other
items contribute nothing. -/
def tableRow (fields : List Str) (indent : Nat) (item : JVal) : Str :=
  match item with
  | JVal.obj kvs =>
    indentChars (indent + 1) ++
      joinSep ',' (fields.map (fun f =>
        match lookupJ kvs f with
        | some v => fmtVal v
        | none => [])) ++ ['\n']
  | _ => []

/-- Embedding of `interfaceArrayToString` (toon.go lines 257-263). -/
def interfaceArrayToString (array : List JVal) : Str :=
  joinSep ',' (fmtList array)

/-- Embedding of `arrayToTOON` (toon.go lines 201-255): empty arrays
render as the empty string; an array whose first item is an object,
under a non-empty key, renders as a table (declared length, field-name
union header, one row per object item); otherwise the simple
`key[n]: v1,v2,...` form, or the bare joined values when the key is
empty. -/
def arrayToTOON (array : List JVal) (key : Str) (indent : Nat) : Str :=
  match array with
  | [] => []
  | first :: _ =>
    match first, key with
    | JVal.obj _, _ :: _ =>
      let fields := fieldUnion array
      (key ++ '[' :: natStr array.length ++ ']' :: '\x7b' :: joinSep ',' fields
        ++ '\x7d' :: ':' :: '\n' :: []) ++
      (array.map (tableRow fields indent)).flatten
    | _, _ =>
      if key = [] then interfaceArrayToString array
      else key ++ '[' :: natStr array.length ++ ']' :: ':' :: ' ' ::
        interfaceArrayToString array

mutual
/-- Embedding of `mapToTOON` (toon.go lines 167-199): an object renders
its entries in order as `indent key ": "` followed by the value — a
string inline with a newline, a nested object on the following lines at
one more indent level, an array through `arrayToTOON` (which receives the
key and appends no extra newline, mirroring the `continue`); a top-level
array goes through `arrayToTOON` with an empty key; a top-level string
matches no case of the Go type switch and renders as the empty string. -/
def mapToTOON : JVal → Nat → Str
  | JVal.str _, _ => []
  | JVal.arr vs, indent => arrayToTOON vs [] indent
  | JVal.obj kvs, indent => mapEntries kvs indent
def mapEntries : List (Str × JVal) → Nat → Str
  | [], _ => []
  | (key, value) :: rest, indent =>
    (indentChars indent ++ key ++ ':' :: ' ' :: []) ++
    (match value with
     | JVal.str s => s ++ ['\n']
     | JVal.obj kvs => '\n' :: mapToTOON (JVal.obj kvs) (indent + 1)
     | JVal.arr vs => arrayToTOON vs key indent) ++
    mapEntries rest indent
end

/-- The badger keyspace seen through the store layer: an association
list from composite byte-string keys to values, in iteration order.
Keys are unique in any store reachable through the API; lemmas that need
this state it as a `Nodup` hypothesis. -/
abbrev Store := List (Str × Str)

/-- Composite storage key, `fmt.Sprintf("%s:%s", collection, key)`. -/
def compositeKey (c k : Str) : Str := c ++ ':' :: k

/-- Association-list lookup (a badger point read). -/
def lookupA : Store → Str → Option Str
  | [], _ => none
  | (k0, v0) :: rest, k => if k0 = k then some v0 else lookupA rest k

/-- Association-list upsert: a badger `txn.Set` commit overwrites the
entry in place when the key exists and appends otherwise. -/
def upsert (st : Store) (k v : Str) : Store :=
  match st with
  | [] => [(k, v)]
  | (k0, v0) :: rest =>
    if k0 = k then (k, v) :: rest else (k0, v0) :: upsert rest k v

/-- Embedding of `Database.Set` (toon.go combined file lines 320-324):
unconditional upsert of the composite key. -/
def dbSet (st : Store) (c k data : Str) : Store :=
  upsert st (compositeKey c k) data

/-- Embedding of `Database.Get` (lines 299-318): point lookup of the
composite key, the raw stored bytes on success, `key not found`
otherwise. -/
def dbGet (st : Store) (c k : Str) : Except Str Str :=
  match lookupA st (compositeKey c k) with
  | some v => Except.ok v
  | none => Except.error ('k' :: 'e' :: 'y' :: ' ' :: 'n' :: 'o' :: 't' ::
      ' ' :: 'f' :: 'o' :: 'u' :: 'n' :: 'd' :: [])

/-- Grouping step of `GetCollections`:
`collections[collection] = append(collections[collection], keyName)` —
append to the entry when the collection is present, create it
otherwise. -/
def addListing : List (Str × List Str) → Str → Str → List (Str × List Str)
  | [], a, b => [(a, [b])]
  | (c0, ks) :: rest, a, b =>
    if c0 = a then (c0, ks ++ [b]) :: rest
    else (c0, ks) :: addListing rest a b

/-- Embedding of `Database.GetCollections` (lines 375-397): full scan in
store order; each key is split on `:` and only keys yielding exactly two
parts contribute (the source checks `len(parts) == 2` and nothing
else). -/
def GetCollections (st : Store) : List (Str × List Str) :=
  st.foldl (fun acc e =>
    match splitChar ':' e.1 with
    | [a, b] => addListing acc a b
    | _ => acc) []

/-- A backup record, Go `db.Record`. -/
structure GoRecord where
  collection : Str
  key : Str
  data : Str
deriving DecidableEq, Repr

/-- Embedding of `Database.Backup` (lines 399-434): full scan in store
order, one record per key that splits on `:` into exactly two parts;
other keys are skipped. -/
def Backup (st : Store) : List GoRecord :=
  st.foldr (fun e acc =>
    match splitChar ':' e.1 with
    | [a, b] => ⟨a, b, e.2⟩ :: acc
    | _ => acc) []

/-- One `txn.Set` inside the `Restore` transaction: `err` models the
engine-level failure of writing a given composite key (badger rejects,
for instance, an empty key or a key beginning with its reserved
`!badger!` prefix); on success the write is buffered in the
transaction's pending-writes batch. -/
def txnLoop (err : Str → Option Str) :
    List GoRecord → List (Str × Str) → Except Str (List (Str × Str))
  | [], pending => Except.ok pending
  | r :: rs, pending =>
    let k := compositeKey r.collection r.key
    match err k with
    | some e => Except.error e
    | none => txnLoop err rs (upsert pending k r.data)

/-- Embedding of `Database.Restore` (lines 436-448): all records are
written through one `db.Update` transaction; the loop stops at the first
`txn.Set` error and returns it, and `Update` then discards the
transaction, so nothing is committed; on success the pending writes are
committed onto the store. -/
def RestoreDB (st : Store) (err : Str → Option Str) (recs : List GoRecord) :
    Option Str × Store :=
  match txnLoop err recs [] with
  | Except.ok pending => (none, pending.foldl (fun s e => upsert s e.1 e.2) st)
  | Except.error e => (some e, st)

/-- Failure model of a store whose engine accepts every write. -/
def noFail : Str → Option Str := fun _ => none

/-- First `txn.Set` error that `Restore` encounters over a record
list. -/
def firstSetErr (err : Str → Option Str) : List GoRecord → Option Str
  | [] => none
  | r :: rs =>
    match err (compositeKey r.collection r.key) with
    | some e => some e
    | none => firstSetErr err rs

/-- Outcome of the HTTP upsert handler, restricted to the paths the
claims reason about (body read and engine write assumed to succeed). -/
inductive UpsertResult where
  | invalidToon
  | saved (st : Store)
deriving DecidableEq, Repr

/-- Embedding of `UpsertHandler` (handlers.go lines 114-160): validate
the body with `ParseToon`; reject with `Invalid TOON format` when the
parser returns an error; otherwise persist the raw body verbatim via
`Set`. -/
def upsertHandler (st : Store) (c k body : Str) : UpsertResult :=
  match (ParseToon body).2 with
  | some _ => UpsertResult.invalidToon
  | none => UpsertResult.saved (dbSet st c k body)

/-- Failure model matching badger's documented key validation: `txn.Set`
rejects an empty key and any key beginning with the reserved `!badger!`
prefix, and accepts the rest. -/
def badgerKeyErr (k : Str) : Option Str :=
  if k = [] then some ("Key cannot be empty").toList
  else if startsWith k ("!badger!").toList
  then some ("Key is using a reserved !badger! prefix").toList
  else none

/-- Record list whose second record has a composite key that the engine
rejects. -/
def recsC1 : List GoRecord :=
  [⟨("a").toList, ("x").toList, ("v").toList⟩,
   ⟨("!badger!m").toList, ("k").toList, ("w").toList⟩]

/-- Looking a key up right after upserting it returns the new value. -/
theorem lookupA_upsert (st : Store) (k v : Str) :
    lookupA (upsert st k v) k = some v := by
  induction st with
  | nil => simp [upsert, lookupA]
  | cons e rest ih =>
    by_cases h : e.1 = k
    · simp [upsert, lookupA, h]
    · simp [upsert, lookupA, h, ih]

/-- C6: For every collection name c, key name k and data string d,
performing Set(c, k, d) and then Get(c, k) returns exactly d,
byte-identical, with no re-encoding or transformation of the stored
payload. -/
theorem set_then_get_returns_data (st : Store) (c k d : Str) :
    dbGet (dbSet st c k d) c k = Except.ok d := by
  simp [dbGet, dbSet, lookupA_upsert]

/-- C9: The store never rejects names containing the separator `:`:
`Set(a, b:c, v)` and `Set(a:b, c, v)` write the same composite storage
key `a:b:c`, whichever Set runs second silently overwrites the other's
record, and afterwards both `Get(a, b:c)` and `Get(a:b, c)` return the
last value written (stated for both execution orders). -/
theorem separator_collision_overwrites (st : Store) (a b c v w : Str) :
    compositeKey a (b ++ ':' :: c) = compositeKey (a ++ ':' :: b) c ∧
    dbGet (dbSet (dbSet st a (b ++ ':' :: c) v) (a ++ ':' :: b) c w)
      a (b ++ ':' :: c) = Except.ok w ∧
    dbGet (dbSet (dbSet st a (b ++ ':' :: c) v) (a ++ ':' :: b) c w)
      (a ++ ':' :: b) c = Except.ok w ∧
    dbGet (dbSet (dbSet st (a ++ ':' :: b) c w) a (b ++ ':' :: c) v)
      a (b ++ ':' :: c) = Except.ok v ∧
    dbGet (dbSet (dbSet st (a ++ ':' :: b) c w) a (b ++ ':' :: c) v)
      (a ++ ':' :: b) c = Except.ok v := by
  have hk : compositeKey a (b ++ ':' :: c) = compositeKey (a ++ ':' :: b) c := by
    simp [compositeKey]
  refine ⟨hk, ?_, ?_, ?_, ?_⟩
  · simp [dbGet, dbSet, lookupA_upsert, hk]
  · simp [dbGet, dbSet, lookupA_upsert, hk]
  · simp [dbGet, dbSet, lookupA_upsert, hk]
  · simp [dbGet, dbSet, lookupA_upsert, hk]

/-- C10: For every POST request body, the upsert handler's
`Invalid TOON format` rejection branch is unreachable: `ParseToon`
always returns a nil error, so every payload is persisted verbatim via
`Set` (body read and storage write assumed to succeed). -/
theorem upsert_rejection_unreachable (st : Store) (c k body : Str) :
    upsertHandler st c k body = UpsertResult.saved (dbSet st c k body) ∧
    upsertHandler st c k body ≠ UpsertResult.invalidToon ∧
    dbGet (dbSet st c k body) c k = Except.ok body := by
  refine ⟨rfl, by simp [upsertHandler, ParseToon], ?_⟩
  simp [dbGet, dbSet, lookupA_upsert]

/-- A record list whose first engine failure is `e` drives `txnLoop` to
that error, whatever is pending. -/
theorem txnLoop_first_error (err : Str → Option Str) (e : Str) :
    ∀ (recs : List GoRecord) (pending : List (Str × Str)),
      firstSetErr err recs = some e →
      txnLoop err recs pending = Except.error e := by
  intro recs
  induction recs with
  | nil => intro pending h; simp [firstSetErr] at h
  | cons r rs ih =>
    intro pending h
    cases herr : err (compositeKey r.collection r.key) with
    | some e0 =>
      simp [firstSetErr, herr] at h
      simp [txnLoop, herr, h]
    | none =>
      simp [firstSetErr, herr] at h
      simp [txnLoop, herr, ih _ h]

/-- C1 (amended): if some record's write fails, `Restore` stops and
returns the first error encountered, and — because every write is
buffered in the single `db.Update` transaction that is discarded on
error — none of the records is committed: the store is returned
unchanged, not a committed prefix. -/
theorem restore_first_error_rolls_back (st : Store) (err : Str → Option Str)
    (recs : List GoRecord) (e : Str) (h : firstSetErr err recs = some e) :
    RestoreDB st err recs = (some e, st) := by
  simp [RestoreDB, txnLoop_first_error err e recs [] h]

/-- Closed instance of the rollback theorem: restoring two records on an
empty store, where the engine rejects the second composite key, returns
the second record's error and an unchanged (still empty) store. -/
theorem restore_first_error_rolls_back_witness :
    firstSetErr badgerKeyErr recsC1 =
      some ("Key is using a reserved !badger! prefix").toList ∧
    RestoreDB [] badgerKeyErr recsC1 =
      (some ("Key is using a reserved !badger! prefix").toList, []) :=
  ⟨by decide,
   restore_first_error_rolls_back [] badgerKeyErr recsC1
     ("Key is using a reserved !badger! prefix").toList (by decide)⟩

/-- C1 (counterexample): with the badger key validation as failure
model, restoring `recsC1` on an empty store fails on the second record,
and the first record is not committed — `Get("a","x")` still misses —
whereas the claim (partial restore, committed prefix) would leave the
store equal to `[("a:x","v")]`. -/
theorem restore_not_partial_counterexample :
    (RestoreDB [] badgerKeyErr recsC1).1 ≠ none ∧
    (RestoreDB [] badgerKeyErr recsC1).2 ≠
      [(compositeKey ("a").toList ("x").toList, ("v").toList)] ∧
    lookupA (RestoreDB [] badgerKeyErr recsC1).2
      (compositeKey ("a").toList ("x").toList) ≠ some ("v").toList := by
  refine ⟨by decide, by decide, by decide⟩

/-- C2 (code evaluation at the failing input): decoding
`"contact:\n  email: a@b"` does not fold the indented line into the
`contact` object.  `ParseToon` trims each line before testing the
two-space indent, so the nested-object branch can never fire: the result
is an empty object under `contact` and a top-level field `email`. -/
theorem nested_line_not_folded_eval :
    ParseToon ("contact:\n  email: a@b").toList =
      ([(("contact").toList, ToonVal.obj []),
        (("email").toList, ToonVal.str ("a@b").toList)], none) ∧
    getF (ParseToon ("contact:\n  email: a@b").toList).1 ("contact").toList ≠
      some (ToonVal.obj [(("email").toList, ("a@b").toList)]) := by
  exact ⟨by decide, by decide⟩

/-- The JSON tree of claim C3:
`{"users": [{"id":"1","name":"Ali"},{"id":"2","name":"Sara"}]}`. -/
def jUsers : JVal :=
  JVal.obj [(("users").toList, JVal.arr
    [JVal.obj [(("id").toList, JVal.str ("1").toList),
               (("name").toList, JVal.str ("Ali").toList)],
     JVal.obj [(("id").toList, JVal.str ("2").toList),
               (("name").toList, JVal.str ("Sara").toList)]])]

/-- The exact table text claim C3 expects. -/
def claimedTableText : Str :=
  ("users[2]\x7bid,name\x7d:\n  1,Ali\n  2,Sara\n").toList

/-- C3 (counterexample): the encoder does not produce the claimed text —
`mapToTOON` writes `users: ` before handing the array (with its key) to
`arrayToTOON`, which writes the key again — and decoding the claimed
text does not reproduce a `users` field at all: the header line carries
no same-line data, so the table regex fails and the whole line is read
as `key with empty value`, while the indented rows are ignored. -/
theorem table_round_trip_counterexample :
    mapToTOON jUsers 0 ≠ claimedTableText ∧
    getF (ParseToon claimedTableText).1 ("users").toList = none := by
  exact ⟨by decide, by decide⟩

/-- C3 (amended): encoding the two-user array under key `users` yields
`users: ` followed by the claimed table text (field order is the union
in first-seen order; Go iterates the field set in unspecified order and
performs no sort), and decoding the claimed text yields one field named
`users[2]{id,name}` holding an empty object, with both data rows
silently dropped and no error. -/
theorem table_encode_decode_actual :
    mapToTOON jUsers 0 = ("users: ").toList ++ claimedTableText ∧
    ParseToon claimedTableText =
      ([(("users[2]\x7bid,name\x7d").toList, ToonVal.obj [])], none) := by
  exact ⟨by decide, by decide⟩

/-- A line that matches none of the decoder's grammar rules: after
trimming it is non-blank, no comment, matches neither regex, does not
enter the indented-context branch, and contains no colon. -/
def lineUnrecognized (st : PState) (rawLine : Str) : Bool :=
  let line := trim rawLine
  !(line.isEmpty) && !(startsWith line ['#']) &&
  (arrayMatch line).isNone && (objArrayMatch line).isNone &&
  !(startsWith line [' ', ' '] && (st.inObject || st.inArray)) &&
  !(containsChar ':' line)

/-- C4: For every input string, `ParseToon` returns a nil error, and a
line matching none of the grammar rules is silently ignored: the step
function leaves the fields map unchanged on such a line (it only resets
the nested context). -/
theorem parse_toon_total_and_skips_unrecognized :
    (∀ t : Str, (ParseToon t).2 = none) ∧
    (∀ (st : PState) (rawLine : Str), lineUnrecognized st rawLine = true →
      (pStep st rawLine).fields = st.fields) := by
  constructor
  · intro t; rfl
  · intro st rawLine h
    simp only [lineUnrecognized, Bool.and_eq_true, Bool.not_eq_true',
      Option.isNone_iff_eq_none, List.isEmpty_eq_true] at h
    obtain ⟨⟨⟨⟨⟨hne, hhash⟩, harr⟩, hobj⟩, hctx⟩, hcol⟩ := h
    simp only [pStep, hne, hhash, harr, hobj, hctx, hcol]
    split <;> rfl

/-- Closed instance of the skip theorem at the line `just garbage`. -/
theorem parse_toon_skips_unrecognized_witness :
    lineUnrecognized pInit ("just garbage").toList = true ∧
    (pStep pInit ("just garbage").toList).fields = pInit.fields :=
  ⟨by decide,
   parse_toon_total_and_skips_unrecognized.2 pInit ("just garbage").toList
     (by decide)⟩

/-- Splitting on a character that does not occur yields the whole string
as the only part. -/
theorem splitChar_of_not_mem (c : Char) (s : Str) (h : c ∉ s) :
    splitChar c s = [s] := by
  induction s with
  | nil => rfl
  | cons x xs ih =>
    have hx : ¬ x = c := fun hxc => h (hxc ▸ List.mem_cons_self x xs)
    have hxs : c ∉ xs := fun hc => h (List.mem_cons_of_mem x hc)
    simp [splitChar, hx, ih hxs]

/-- C5: decoding a single line matched by the array rule
`key[n]: v1,...,vm` stores, under `key`, exactly the first `n`
(trimmed) comma-values when more than `n` are supplied, and all of them
unchanged when at most `n` are supplied, and returns no error. -/
theorem array_line_truncates (line key g3 : Str) (n : Nat)
    (htr : trim line = line) (hnl : '\n' ∉ line)
    (hh : startsWith line ['#'] = false)
    (hm : arrayMatch line = some (key, n, g3)) :
    ParseToon line =
      ([(key, ToonVal.arr
        (if ((splitChar ',' g3).map trim).length > n
         then ((splitChar ',' g3).map trim).take n
         else (splitChar ',' g3).map trim))], none) := by
  have hne : line ≠ [] := by
    intro h0
    rw [h0] at hm
    simp [arrayMatch, breakAt] at hm
  have hsplit : splitChar '\n' line = [line] := splitChar_of_not_mem _ _ hnl
  simp [ParseToon, hsplit, pStep, pInit, htr, hne, hh, hm, setF]

/-- Closed instance of the truncation theorem: `k[2]: a,b,c` keeps only
the first two values, and `k[3]: a,b` keeps both values without
padding. -/
theorem array_line_truncates_witness :
    (trim ("k[2]: a,b,c").toList = ("k[2]: a,b,c").toList ∧
     ¬ ('\n' ∈ ("k[2]: a,b,c").toList) ∧
     startsWith ("k[2]: a,b,c").toList ['#'] = false ∧
     arrayMatch ("k[2]: a,b,c").toList =
       some (("k").toList, 2, ("a,b,c").toList)) ∧
    ParseToon ("k[2]: a,b,c").toList =
      ([(("k").toList, ToonVal.arr [("a").toList, ("b").toList])], none) ∧
    ParseToon ("k[3]: a,b").toList =
      ([(("k").toList, ToonVal.arr [("a").toList, ("b").toList])], none) := by
  refine ⟨⟨by decide, by decide, by decide, by decide⟩, ?_, ?_⟩
  · have h := array_line_truncates ("k[2]: a,b,c").toList ("k").toList
      ("a,b,c").toList 2 (by decide) (by decide) (by decide) (by decide)
    simpa using h
  · have h := array_line_truncates ("k[3]: a,b").toList ("k").toList
      ("a,b").toList 3 (by decide) (by decide) (by decide) (by decide)
    simpa using h


/-- Go `strings.Split` never returns an empty slice. -/
theorem splitChar_ne_nil (c : Char) (s : Str) : splitChar c s ≠ [] := by
  induction s with
  | nil => simp [splitChar]
  | cons x xs ih =>
    by_cases hx : x = c
    · simp [splitChar, hx]
    · simp only [splitChar, hx, if_false]
      cases h : splitChar c xs with
      | nil => exact absurd h ih
      | cons r rs => simp

/-- Splitting a string that starts with a separator-free part `a`
followed by the separator peels off `a`. -/
theorem splitChar_append (c : Char) (a b : Str) (ha : c ∉ a) :
    splitChar c (a ++ c :: b) = a :: splitChar c b := by
  induction a with
  | nil => simp [splitChar]
  | cons x xs ih =>
    have hx : ¬ x = c := fun hxc => ha (hxc ▸ List.mem_cons_self x xs)
    have hxs : c ∉ xs := fun hc => ha (List.mem_cons_of_mem x hc)
    have h1 : (x :: xs) ++ c :: b = x :: (xs ++ c :: b) := rfl
    rw [h1, splitChar, if_neg hx, ih hxs]

/-- A one-part split means the separator does not occur. -/
theorem splitChar_singleton_dest (c : Char) (s t : Str)
    (h : splitChar c s = [t]) : s = t ∧ c ∉ s := by
  induction s generalizing t with
  | nil =>
    simp only [splitChar, List.cons.injEq, and_true] at h
    exact ⟨h, by simp⟩
  | cons x xs ih =>
    by_cases hx : x = c
    · rw [splitChar, if_pos hx] at h
      cases hsp : splitChar c xs with
      | nil => exact absurd hsp (splitChar_ne_nil c xs)
      | cons r rs => rw [hsp] at h; simp at h
    · rw [splitChar, if_neg hx] at h
      cases hsp : splitChar c xs with
      | nil => exact absurd hsp (splitChar_ne_nil c xs)
      | cons r rs =>
        rw [hsp] at h
        obtain ⟨hrt, hrs⟩ := List.cons_eq_cons.mp h
        have hx1 : splitChar c xs = [r] := by rw [hsp, hrs]
        obtain ⟨hxr, hcx⟩ := ih r hx1
        refine ⟨by rw [← hrt, hxr], ?_⟩
        intro hmem
        rcases List.mem_cons.mp hmem with h1 | h2
        · exact hx h1.symm
        · exact hcx h2

/-- A two-part split decomposes the string around its only separator. -/
theorem splitChar_two_dest (c : Char) (s : Str) :
    ∀ a b : Str, splitChar c s = [a, b] →
      s = a ++ c :: b ∧ c ∉ a ∧ c ∉ b := by
  induction s with
  | nil => intro a b h; simp [splitChar] at h
  | cons x xs ih =>
    intro a b h
    by_cases hx : x = c
    · rw [splitChar, if_pos hx] at h
      obtain ⟨ha, hxs⟩ := List.cons_eq_cons.mp h
      obtain ⟨hxb, hcb⟩ := splitChar_singleton_dest c xs b hxs
      subst hxb
      refine ⟨by rw [← ha, hx]; rfl, ?_, hcb⟩
      rw [← ha]
      simp
    · rw [splitChar, if_neg hx] at h
      cases hsp : splitChar c xs with
      | nil => exact absurd hsp (splitChar_ne_nil c xs)
      | cons r rs =>
        rw [hsp] at h
        obtain ⟨ha, hrs⟩ := List.cons_eq_cons.mp h
        have hx2 : splitChar c xs = [r, b] := by rw [hsp, hrs]
        obtain ⟨hxs, hcr, hcb⟩ := ih r b hx2
        refine ⟨by rw [← ha, hxs]; rfl, ?_, hcb⟩
        rw [← ha]
        intro hmem
        rcases List.mem_cons.mp hmem with h1 | h2
        · exact hx h1.symm
        · exact hcr h2

/-- Splitting `a ++ c :: b` with separator-free `a` and `b` yields
exactly those two parts. -/
theorem splitChar_two_intro (c : Char) (a b : Str) (ha : c ∉ a)
    (hb : c ∉ b) : splitChar c (a ++ c :: b) = [a, b] := by
  rw [splitChar_append c a b ha, splitChar_of_not_mem c b hb]

/-- One element of the `GetCollections` scan. -/
def collStep (acc : List (Str × List Str)) (e : Str × Str) :
    List (Str × List Str) :=
  match splitChar ':' e.1 with
  | [a, b] => addListing acc a b
  | _ => acc

/-- The scan of `GetCollections` is the fold of `collStep`. -/
theorem getCollections_eq_foldl (st : Store) :
    GetCollections st = st.foldl collStep [] := rfl

/-- Membership of a (collection, key name) pair in a listing. -/
def listedIn (acc : List (Str × List Str)) (c kn : Str) : Prop :=
  ∃ ks, (c, ks) ∈ acc ∧ kn ∈ ks

/-- Membership in a listing with one leading entry. -/
theorem listedIn_cons (c0 : Str) (ks0 : List Str)
    (rest : List (Str × List Str)) (c kn : Str) :
    listedIn ((c0, ks0) :: rest) c kn ↔
      (c = c0 ∧ kn ∈ ks0) ∨ listedIn rest c kn := by
  constructor
  · rintro ⟨ks, hmem, hkn⟩
    rcases List.mem_cons.mp hmem with heq | hmem2
    · cases heq
      exact Or.inl ⟨rfl, hkn⟩
    · exact Or.inr ⟨ks, hmem2, hkn⟩
  · rintro (⟨rfl, hks⟩ | ⟨ks, hmem, hkn⟩)
    · exact ⟨ks0, List.mem_cons_self _ _, hks⟩
    · exact ⟨ks, List.mem_cons_of_mem _ hmem, hkn⟩

/-- Appending one key name to a listing adds exactly that pair and keeps
everything already listed. -/
theorem listedIn_addListing (acc : List (Str × List Str)) (a b c kn : Str) :
    listedIn (addListing acc a b) c kn ↔
      (c = a ∧ kn = b) ∨ listedIn acc c kn := by
  induction acc with
  | nil =>
    have h0 : addListing [] a b = [(a, [b])] := rfl
    rw [h0, listedIn_cons]
    simp [listedIn]
  | cons e rest ih =>
    obtain ⟨c0, ks0⟩ := e
    by_cases hc : c0 = a
    · subst hc
      rw [addListing, if_pos rfl, listedIn_cons, listedIn_cons]
      simp only [List.mem_append, List.mem_singleton]
      tauto
    · rw [addListing, if_neg hc, listedIn_cons, listedIn_cons, ih]
      tauto

/-- Effect of one scanned store entry on listing membership: a key that
splits into exactly two parts — empty or not — contributes that pair,
any other key contributes nothing. -/
theorem listedIn_collStep (acc : List (Str × List Str)) (e : Str × Str)
    (c kn : Str) :
    listedIn (collStep acc e) c kn ↔
      (compositeKey c kn = e.1 ∧ ':' ∉ c ∧ ':' ∉ kn) ∨ listedIn acc c kn := by
  rcases hsp : splitChar ':' e.1 with _ | ⟨a, _ | ⟨b, _ | ⟨d, t⟩⟩⟩
  · exact absurd hsp (splitChar_ne_nil _ _)
  · have hcoll : collStep acc e = acc := by simp [collStep, hsp]
    rw [hcoll]
    constructor
    · exact Or.inr
    · rintro (⟨hk, hc, hkn⟩ | hacc)
      · exfalso
        have h2 : splitChar ':' e.1 = [c, kn] := by
          rw [← hk]
          exact splitChar_two_intro ':' c kn hc hkn
        rw [hsp] at h2
        simp at h2
      · exact hacc
  · have hcoll : collStep acc e = addListing acc a b := by simp [collStep, hsp]
    obtain ⟨he, hca, hcb⟩ := splitChar_two_dest ':' e.1 a b hsp
    rw [hcoll, listedIn_addListing]
    constructor
    · rintro (⟨rfl, rfl⟩ | hacc)
      · exact Or.inl ⟨by rw [he]; rfl, hca, hcb⟩
      · exact Or.inr hacc
    · rintro (⟨hk, hc, hkn⟩ | hacc)
      · have h2 : splitChar ':' e.1 = [c, kn] := by
          rw [← hk]
          exact splitChar_two_intro ':' c kn hc hkn
        rw [hsp] at h2
        obtain ⟨h3, h4⟩ := List.cons_eq_cons.mp h2
        obtain ⟨h5, _⟩ := List.cons_eq_cons.mp h4
        exact Or.inl ⟨h3.symm, h5.symm⟩
      · exact Or.inr hacc
  · have hcoll : collStep acc e = acc := by simp [collStep, hsp]
    rw [hcoll]
    constructor
    · exact Or.inr
    · rintro (⟨hk, hc, hkn⟩ | hacc)
      · exfalso
        have h2 : splitChar ':' e.1 = [c, kn] := by
          rw [← hk]
          exact splitChar_two_intro ':' c kn hc hkn
        rw [hsp] at h2
        simp at h2
      · exact hacc

/-- Listing membership after scanning a store fragment. -/
theorem listedIn_foldl (st : Store) :
    ∀ (acc : List (Str × List Str)) (c kn : Str),
      listedIn (List.foldl collStep acc st) c kn ↔
        listedIn acc c kn ∨
          ∃ v, (compositeKey c kn, v) ∈ st ∧ ':' ∉ c ∧ ':' ∉ kn := by
  induction st with
  | nil => intro acc c kn; simp
  | cons e rest ih =>
    intro acc c kn
    rw [List.foldl_cons, ih, listedIn_collStep]
    constructor
    · rintro ((⟨hk, hc, hkn⟩ | hacc) | ⟨v, hmem, hc, hkn⟩)
      · exact Or.inr ⟨e.2,
          List.mem_cons.mpr (Or.inl (Prod.ext_iff.mpr ⟨hk, rfl⟩)), hc, hkn⟩
      · exact Or.inl hacc
      · exact Or.inr ⟨v, List.mem_cons_of_mem _ hmem, hc, hkn⟩
    · rintro (hacc | ⟨v, hmem, hc, hkn⟩)
      · exact Or.inl (Or.inr hacc)
      · rcases List.mem_cons.mp hmem with heq | hmem2
        · exact Or.inl (Or.inl ⟨congrArg Prod.fst heq, hc, hkn⟩)
        · exact Or.inr ⟨v, hmem2, hc, hkn⟩

/-- C7 (amended): a pair (collection c, key name kn) is visible in
`GetCollections` exactly when the store holds the composite key
`c ++ ":" ++ kn` with both parts free of the separator — whether or not
a part is empty: the source checks only `len(parts) == 2`, never
non-emptiness. -/
theorem get_collections_lists_two_part_keys (st : Store) (c kn : Str) :
    (∃ ks, (c, ks) ∈ GetCollections st ∧ kn ∈ ks) ↔
      ∃ v, (compositeKey c kn, v) ∈ st ∧ ':' ∉ c ∧ ':' ∉ kn := by
  rw [getCollections_eq_foldl]
  have h := listedIn_foldl st [] c kn
  have h0 : ¬ listedIn ([] : List (Str × List Str)) c kn := by
    simp [listedIn]
  constructor
  · intro hx
    rcases h.mp hx with h1 | h2
    · exact absurd h1 h0
    · exact h2
  · intro hx
    exact h.mpr (Or.inr hx)

/-- C7 (counterexample): a store holding only the composite key `:x`
(empty collection part) yields a listing with the pair `("", ["x"])` —
the key is not skipped, contrary to the claim that keys with an empty
part are invisible. -/
theorem get_collections_empty_part_listed :
    GetCollections [((":x").toList, ("v").toList)] =
      [(([] : Str), [("x").toList])] ∧
    GetCollections [((":x").toList, ("v").toList)] ≠ [] := by
  exact ⟨by decide, by decide⟩

/-- Keys of a store, in iteration order. -/
def keysOf (st : Store) : List Str := st.map Prod.fst

/-- Composite key that splits on `:` into exactly two parts. -/
def isTwoParts (k : Str) : Bool :=
  match splitChar ':' k with
  | [_, _] => true
  | _ => false

/-- The key/value pair a restored record writes. -/
def pairFn (r : GoRecord) : Str × Str :=
  (compositeKey r.collection r.key, r.data)

/-- Upserting an absent key appends the entry. -/
theorem upsert_of_not_mem (st : Store) (k v : Str) (h : k ∉ keysOf st) :
    upsert st k v = st ++ [(k, v)] := by
  induction st with
  | nil => rfl
  | cons e rest ih =>
    have hk : ¬ e.1 = k := fun he => h (he ▸ List.mem_map_of_mem Prod.fst
      (List.mem_cons_self e rest))
    have hrest : k ∉ keysOf rest := fun hm =>
      h (List.mem_cons_of_mem _ hm)
    simp [upsert, hk, ih hrest]

/-- Folding upserts of pairwise-fresh keys just appends the pairs. -/
theorem foldl_upsert_fresh :
    ∀ (pairs : Store) (st : Store), (keysOf pairs).Nodup →
      (∀ k ∈ keysOf pairs, k ∉ keysOf st) →
      pairs.foldl (fun s e => upsert s e.1 e.2) st = st ++ pairs := by
  intro pairs
  induction pairs with
  | nil => intro st _ _; simp
  | cons e rest ih =>
    intro st hnd hdis
    have hek : e.1 ∉ keysOf st :=
      hdis e.1 (List.mem_map_of_mem Prod.fst (List.mem_cons_self e rest))
    have hnd2 : (keysOf rest).Nodup := by
      simpa [keysOf] using hnd.of_cons
    have hfresh : e.1 ∉ keysOf rest := by
      have := hnd
      simp only [keysOf, List.map_cons, List.nodup_cons] at this
      exact this.1
    have hdis2 : ∀ k ∈ keysOf rest, k ∉ keysOf (st ++ [(e.1, e.2)]) := by
      intro k hk hmem
      simp only [keysOf, List.map_append, List.mem_append] at hmem
      rcases hmem with h1 | h2
      · exact hdis k (List.mem_cons_of_mem _ hk) h1
      · simp only [List.map_cons, List.map_nil, List.mem_singleton] at h2
        exact hfresh (h2 ▸ hk)
    calc (e :: rest).foldl (fun s e => upsert s e.1 e.2) st
        = rest.foldl (fun s e => upsert s e.1 e.2) (upsert st e.1 e.2) := rfl
      _ = rest.foldl (fun s e => upsert s e.1 e.2) (st ++ [(e.1, e.2)]) := by
          rw [upsert_of_not_mem st e.1 e.2 hek]
      _ = (st ++ [(e.1, e.2)]) ++ rest := ih _ hnd2 hdis2
      _ = st ++ e :: rest := by simp

/-- The pairs a backup rewrites are exactly the store entries whose key
splits into two parts, in order. -/
theorem backup_map_pairFn (st : Store) :
    (Backup st).map pairFn = st.filter (fun e => isTwoParts e.1) := by
  induction st with
  | nil => rfl
  | cons e rest ih =>
    rcases hsp : splitChar ':' e.1 with _ | ⟨a, _ | ⟨b, _ | ⟨d, t⟩⟩⟩
    · exact absurd hsp (splitChar_ne_nil _ _)
    · have h1 : Backup (e :: rest) = Backup rest := by
        simp [Backup, hsp]
      have h2 : isTwoParts e.1 = false := by simp [isTwoParts, hsp]
      simp [h1, List.filter_cons, h2, ih]
    · have h1 : Backup (e :: rest) = ⟨a, b, e.2⟩ :: Backup rest := by
        simp [Backup, hsp]
      have h2 : isTwoParts e.1 = true := by simp [isTwoParts, hsp]
      obtain ⟨he, _, _⟩ := splitChar_two_dest ':' e.1 a b hsp
      have h3 : pairFn ⟨a, b, e.2⟩ = e := by
        simp [pairFn, compositeKey, ← he]
      simp [h1, List.filter_cons, h2, ih, h3]
    · have h1 : Backup (e :: rest) = Backup rest := by
        simp [Backup, hsp]
      have h2 : isTwoParts e.1 = false := by simp [isTwoParts, hsp]
      simp [h1, List.filter_cons, h2, ih]

/-- With a never-failing engine the restore transaction buffers every
record write. -/
theorem txnLoop_noFail :
    ∀ (recs : List GoRecord) (pending : List (Str × Str)),
      txnLoop noFail recs pending = Except.ok
        (recs.foldl (fun p r => upsert p (pairFn r).1 (pairFn r).2) pending) := by
  intro recs
  induction recs with
  | nil => intro pending; rfl
  | cons r rs ih =>
    intro pending
    simp [txnLoop, noFail, ih, pairFn]

/-- Keys of a key-filtered store. -/
theorem keysOf_filter (st : Store) :
    keysOf (st.filter (fun e => isTwoParts e.1)) =
      (keysOf st).filter isTwoParts := by
  induction st with
  | nil => rfl
  | cons e rest ih =>
    by_cases h : isTwoParts e.1
    · simp [keysOf, List.filter_cons, h] at ih ⊢
      exact ih
    · simp only [Bool.not_eq_true] at h
      simp [keysOf, List.filter_cons, h] at ih ⊢
      exact ih

/-- A store entry whose key does not split into two parts contributes
nothing to the collections scan. -/
theorem collStep_of_not_two (acc : List (Str × List Str)) (e : Str × Str)
    (h : isTwoParts e.1 = false) : collStep acc e = acc := by
  rcases hsp : splitChar ':' e.1 with _ | ⟨a, _ | ⟨b, _ | ⟨d, t⟩⟩⟩
  · exact absurd hsp (splitChar_ne_nil _ _)
  · simp [collStep, hsp]
  · simp [isTwoParts, hsp] at h
  · simp [collStep, hsp]

/-- Dropping the non-two-part keys does not change the collections
listing. -/
theorem getCollections_filter (st : Store) :
    ∀ acc : List (Str × List Str),
      (st.filter (fun e => isTwoParts e.1)).foldl collStep acc =
        st.foldl collStep acc := by
  induction st with
  | nil => intro acc; rfl
  | cons e rest ih =>
    intro acc
    by_cases h : isTwoParts e.1
    · simp only [List.filter_cons, h, if_pos, List.foldl_cons]
      exact ih _
    · simp only [Bool.not_eq_true] at h
      simp only [List.filter_cons, h, List.foldl_cons, Bool.false_eq_true,
        if_false, collStep_of_not_two acc e h]
      exact ih _

/-- C8: taking `Backup()` and replaying it with `Restore` on an empty
fresh store produces a store whose `GetCollections` output equals the
original store's `GetCollections` output exactly (stores reachable
through the API have pairwise-distinct keys, stated as the `Nodup`
hypothesis). -/
theorem backup_restore_reproduces_collections (st : Store)
    (h : (st.map Prod.fst).Nodup) :
    GetCollections ((RestoreDB [] noFail (Backup st)).2) = GetCollections st := by
  have hfiltnd : (keysOf (st.filter (fun e => isTwoParts e.1))).Nodup := by
    rw [keysOf_filter]
    exact List.Nodup.filter _ h
  have hpending :
      (Backup st).foldl (fun p r => upsert p (pairFn r).1 (pairFn r).2) [] =
        st.filter (fun e => isTwoParts e.1) := by
    have hmap := List.foldl_map pairFn (fun s (e : Str × Str) => upsert s e.1 e.2)
      (Backup st) ([] : Store)
    calc (Backup st).foldl (fun p r => upsert p (pairFn r).1 (pairFn r).2) []
        = ((Backup st).map pairFn).foldl (fun s e => upsert s e.1 e.2) [] := by
          rw [hmap]
      _ = st.filter (fun e => isTwoParts e.1) := by
          rw [backup_map_pairFn]
          have := foldl_upsert_fresh (st.filter (fun e => isTwoParts e.1)) []
            hfiltnd (by intro k _ hk; simp [keysOf] at hk)
          simpa using this
  have hstore : (RestoreDB [] noFail (Backup st)).2 =
      st.filter (fun e => isTwoParts e.1) := by
    rw [RestoreDB, txnLoop_noFail, hpending]
    have := foldl_upsert_fresh (st.filter (fun e => isTwoParts e.1)) []
      hfiltnd (by intro k _ hk; simp [keysOf] at hk)
    simpa using this
  rw [hstore, getCollections_eq_foldl, getCollections_eq_foldl,
    getCollections_filter]

/-- Closed instance: backing up and restoring a four-entry store — one
key without separator, one with two separators — reproduces the
collections listing. -/
theorem backup_restore_reproduces_collections_witness :
    (([((("a:x").toList), ("1").toList), ((("b:y").toList), ("2").toList),
       ((("plain").toList), ("3").toList), ((("a:b:c").toList), ("4").toList)]
        : Store).map Prod.fst).Nodup ∧
    GetCollections ((RestoreDB [] noFail (Backup
      [((("a:x").toList), ("1").toList), ((("b:y").toList), ("2").toList),
       ((("plain").toList), ("3").toList), ((("a:b:c").toList), ("4").toList)])).2) =
    GetCollections
      [((("a:x").toList), ("1").toList), ((("b:y").toList), ("2").toList),
       ((("plain").toList), ("3").toList), ((("a:b:c").toList), ("4").toList)] :=
  ⟨by decide,
   backup_restore_reproduces_collections
     [((("a:x").toList), ("1").toList), ((("b:y").toList), ("2").toList),
      ((("plain").toList), ("3").toList), ((("a:b:c").toList), ("4").toList)]
     (by decide)⟩
